import Mathlib

/-!
Verification of the asm-code-lens core (src/grep.ts, src/RenameProvider.ts)
against its natural-language specification.

The TypeScript sources are shallowly embedded below.  External collaborators
that are not part of the repository snapshot (vscode workspace services, the
comment stripper in comments.ts, the label resolver in grepextra.ts and the
regex library in regexes/) are modelled as explicit function parameters or,
where the specification fixes their behaviour, as definitions marked
"Modelled from the spec".  JavaScript-specific semantics that the code relies
on (Map insertion order, bracket property access including the prototype
chain, Array unshift, RegExp lastIndex handling) are modelled explicitly.
-/

/-- A line/column position (vscode.Position). -/
structure Pos where
  line : Nat
  character : Nat
deriving DecidableEq

/-- Abstraction of a JS RegExpExecArray produced by RegExp.exec on a line:
the match index, the length of the whole match (match[0].length) and the
summed length of the matched (non-undefined) capture groups 1..n, which
grep.ts uses to shift the start column past a consumed prefix. -/
structure RMatch where
  index : Nat
  len : Nat
  groupsLen : Nat
deriving DecidableEq

/-- Abstraction of a JS RegExp: the global flag and the search function.
Given the input string and the current lastIndex, find returns the first
match at or after that position (JS exec semantics for a global regex). -/
structure JsRegex where
  global : Bool
  find : String → Nat → Option RMatch

/-- The FileMatch record of grep.ts: file path, line number, start column
(after the capture-group adjustment), end column, the line contents and the
underlying match data.  The field named end in the source is endCol here. -/
structure FileMatch where
  filePath : String
  line : Nat
  start : Nat
  endCol : Nat
  lineContents : String
  m : RMatch
deriving DecidableEq

/-- The GrepLocation of grep.ts: a vscode location (file, range on one line)
plus the FileMatch payload and the label / moduleLabel fields that
reduceLocations assigns (undefined before assignment, hence Option).
The symbol field (computed by the external getCompleteLabel of grepextra.ts)
is not modelled; no claim refers to it. -/
structure GrepLocation where
  file : String
  line : Nat
  colStart : Nat
  colEnd : Nat
  fm : FileMatch
  label : Option String
  moduleLabel : Option String
deriving DecidableEq

/-- JS Map.set on a string-keyed map represented as an association list in
insertion order: an existing key keeps its position and gets the new value,
a new key is appended at the end. -/
def jsMapSet {V : Type} (m : List (String × V)) (k : String) (v : V) :
    List (String × V) :=
  match m with
  | [] => [(k, v)]
  | (k', v') :: rest =>
    if k' == k then (k', v) :: rest else (k', v') :: jsMapSet rest k v

/-- removeDuplicates of grep.ts: put every location into a JS Map keyed by
handler(loc) (later entries overwrite earlier values, insertion order of the
keys is kept) and return the array of the map's values. -/
def removeDuplicates {α : Type} (locations : List α) (handler : α → String) :
    List α :=
  (locations.foldl (fun m loc => jsMapSet m (handler loc) loc) []).map Prod.snd

/-- The distinct keys of a list in order of first occurrence (the key order
a JS Map ends up with after inserting the list left to right). -/
def firstKeys (ks : List String) : List String :=
  ks.foldl (fun acc k => if k ∈ acc then acc else acc ++ [k]) []

/-- The element of the list that is the last occurrence of the key k under
handler, if the key occurs at all. -/
def lastWith {α : Type} (locs : List α) (handler : α → String) (k : String) :
    Option α :=
  (locs.filter (fun x => handler x == k)).getLast?

/-- Substring containment test, modelling the JS test
fileName.indexOf(rootFolder) >= 0 used by grep's root-folder filter
(note the source tests containment anywhere, not a path prefix). -/
def strContains (hay pat : String) : Bool :=
  containsAux hay.toList pat.toList
where
  containsAux : List Char → List Char → Bool
  | _, [] => true
  | [], _ :: _ => false
  | c :: cs, p :: ps => (isPrefixAux (p :: ps) (c :: cs)) || containsAux cs (p :: ps)
  isPrefixAux : List Char → List Char → Bool
  | [], _ => true
  | _ :: _, [] => false
  | p :: ps, c :: cs => p == c && isPrefixAux ps cs

/-- One do/while round of the per-line exec loop of grep.ts
(grepTextDocument and the disk branch of grep): repeatedly exec the regex on
the line, starting with lastIndex reset to 0, collecting matches in the order
they are found; a global regex continues from index + match[0].length, a
non-global regex exits the loop after the first exec.  The fuel argument
bounds the iterations: it is exhausted only when a global regex keeps
matching without advancing (a zero-width match), where the real JS loop does
not terminate. -/
def scanLineGo (r : JsRegex) (s : String) : Nat → Nat → List RMatch → List RMatch
  | 0, _, acc => acc
  | fuel + 1, li, acc =>
    match r.find s li with
    | none => acc
    | some m =>
      if r.global then scanLineGo r s fuel (m.index + m.len) (acc ++ [m])
      else acc ++ [m]

/-- All matches of the regex on one line, in the order they are found,
starting from lastIndex 0 (grep.ts resets lastIndex at each line). -/
def scanLineFound (r : JsRegex) (s : String) : List RMatch :=
  scanLineGo r s (s.length + 1) 0 []

/-- Builds the FileMatch record for a match found on line i of filePath:
the start column is match.index plus the summed lengths of the matched
capture groups (the prefix adjustment), end is index + match[0].length. -/
def mkFileMatch (filePath : String) (i : Nat) (s : String) (m : RMatch) :
    FileMatch :=
  { filePath := filePath, line := i, start := m.index + m.groupsLen,
    endCol := m.index + m.len, lineContents := s, m := m }

/-- The disk-file per-line scan of grep.ts (lines 180-224): skip empty
lines, collect the per-line matches; lineMatches is built with unshift, so
each line's matches are stored in reverse discovery order. -/
def grepDiskLines (r : JsRegex) (filePath : String) :
    Nat → List String → List FileMatch
  | _, [] => []
  | i, s :: rest =>
    (if s.length = 0 then []
     else ((scanLineFound r s).reverse).map (mkFileMatch filePath i s)) ++
    grepDiskLines r filePath (i + 1) rest

/-- grepTextDocument of grep.ts: strip comments, then scan every line
(empty lines included), pushing matches in discovery order; filePath is left
undefined (modelled as "") and filled in by the caller. -/
def gtdLines (r : JsRegex) : Nat → List String → List FileMatch
  | _, [] => []
  | i, s :: rest =>
    (scanLineFound r s).map (mkFileMatch "" i s) ++ gtdLines r (i + 1) rest

/-- grepTextDocument of grep.ts, parameterised by the external comment
stripper (comments.ts is not part of the snapshot). -/
def grepTextDocument (strip : List String → List String)
    (docLines : List String) (r : JsRegex) : List FileMatch :=
  gtdLines r 0 (strip docLines)

/-- Splitter accumulating the current line in reverse. -/
def splitLinesAux : List Char → List Char → List String
  | [], cur => [String.mk cur.reverse]
  | c :: cs, cur =>
    if c == '\n' then String.mk cur.reverse :: splitLinesAux cs []
    else splitLinesAux cs (c :: cur)

/-- The JS content.split of grep.ts: the file content cut at every newline
character (a trailing newline yields a final empty line, an empty content
yields one empty line). -/
def splitLines (s : String) : List String :=
  splitLinesAux s.toList []

/-- The environment of external collaborators consumed by grep:
the host file enumeration (which may throw), the set of open dirty documents
of the searched language (by path) and their line contents, the filesystem
read (which may throw) and the comment stripper. -/
structure GrepEnv where
  findFiles : Except Unit (List String)
  docs : List String
  docLines : String → List String
  readFile : String → Except Unit String
  strip : List String → List String

/-- One iteration of grep's file loop for a file that passed the root-folder
filter, updating the accumulated per-file match map (JS Map semantics).
Live documents are scanned with grepTextDocument and their (possibly empty)
match list is stored; disk files append their matches to an existing entry
for the same path, and create an entry only when a first match is found. -/
def grepStep (env : GrepEnv) (r : JsRegex) (root : String)
    (m : List (String × List FileMatch)) (fileName : String) :
    List (String × List FileMatch) :=
  if strContains fileName root = false then m
  else if fileName ∈ env.docs then
    let fms := (grepTextDocument env.strip (env.docLines fileName) r).map
      (fun fm => { fm with filePath := fileName })
    jsMapSet m fileName fms
  else
    match env.readFile fileName with
    | .error _ => m
    | .ok content =>
      let lines := env.strip (splitLines content)
      let newMs := grepDiskLines r fileName 0 lines
      match m.lookup fileName with
      | some old => jsMapSet m fileName (old ++ newMs)
      | none => if newMs.isEmpty then m else jsMapSet m fileName newMs

/-- Whether grep's processing of this file throws: only the disk read can
(fs.readFileSync); files outside the root folder and live documents are
safe. -/
def grepStepFails (env : GrepEnv) (root : String) (fileName : String) : Bool :=
  strContains fileName root && !(fileName ∈ env.docs) &&
    !(env.readFile fileName).isOk

/-- The file loop inside grep's try/catch: process files in order, stopping
at the first exception and reporting whether one occurred; the accumulated
map so far survives the exception. -/
def grepScanFiles (env : GrepEnv) (r : JsRegex) (root : String) :
    List String → List (String × List FileMatch) →
    List (String × List FileMatch) × Bool
  | [], m => (m, false)
  | f :: rest, m =>
    if grepStepFails env root f then (m, true)
    else grepScanFiles env r root rest (grepStep env r root m f)

/-- The final conversion of grep.ts (lines 232-249): iterate the match map
in insertion order and turn every FileMatch into a GrepLocation whose range
is (line, start)-(line, end); label and moduleLabel are still undefined. -/
def mkGrepLoc (file : String) (fm : FileMatch) : GrepLocation :=
  { file := file, line := fm.line, colStart := fm.start, colEnd := fm.endCol,
    fm := fm, label := none, moduleLabel := none }

/-- Converts the per-file match map into the location list. -/
def matchesToLocations (m : List (String × List FileMatch)) :
    List GrepLocation :=
  m.flatMap (fun e => e.2.map (mkGrepLoc e.1))

/-- grep of grep.ts: enumerate candidate files (an exception yields no
matches), scan them inside the try/catch and convert whatever was
accumulated into locations.  The function is total: exceptions never
escape. -/
def grep (env : GrepEnv) (r : JsRegex) (root : String) : List GrepLocation :=
  let allMatches :=
    match env.findFiles with
    | .error _ => []
    | .ok uris => (grepScanFiles env r root uris []).1
  matchesToLocations allMatches

/-- The deduplication key used by grepMultiple:
fm.filePath + ":" + fm.line + ":" + fm.start (JS number-to-string is the
decimal representation, Nat.repr). -/
def grepKey (loc : GrepLocation) : String :=
  loc.fm.filePath ++ ":" ++ Nat.repr loc.fm.line ++ ":" ++ Nat.repr loc.fm.start

/-- The (file path, line, start column) triple of a location. -/
def grepTriple (loc : GrepLocation) : String × Nat × Nat :=
  (loc.fm.filePath, loc.fm.line, loc.fm.start)

/-- grepMultiple of grep.ts: grep every regex in order, concatenate the
results and (when at least one regex was given) remove duplicates keyed by
(file path, line, start column). -/
def grepMultiple (env : GrepEnv) (regexes : List JsRegex) (root : String) :
    List GrepLocation :=
  let allLocations := regexes.flatMap (fun r => grep env r root)
  if regexes.length > 0 then removeDuplicates allLocations grepKey
  else allLocations

/-- Boolean list-prefix test used by the spec-modelled line matchers. -/
def charsPrefixB : List Char → List Char → Bool
  | [], _ => true
  | _ :: _, [] => false
  | p :: ps, c :: cs => p == c && charsPrefixB ps cs

/-- The module/struct open-close classification of one line.
Modelled from the spec: CommonRegexes.regexModuleStruct and
regexEndModuleStruct (regexes/commonregexes.ts is not in the snapshot) match
a module/struct-open line, capturing the name in group 2, respectively a
module/struct-close line; the two patterns are mutually exclusive. -/
inductive LineEvent where
  | openScope (name : String)
  | closeScope
  | other
deriving DecidableEq

/-- A word or dot character of a captured module name. -/
def wordDotChar (c : Char) : Bool :=
  c.isAlphanum || c == '_' || c == '.'

/-- Modelled from the spec: classifies a line as module/struct open (with the
captured name), module/struct close, or neither.  After leading blanks, an
open line starts with the keyword MODULE or STRUCT followed by the name,
a close line starts with ENDMODULE or ENDSTRUCT. -/
def lineEvent (s : String) : LineEvent :=
  let t := s.toList.dropWhile (fun c => c == ' ' || c == '\t')
  if charsPrefixB "ENDMODULE".toList t || charsPrefixB "ENDSTRUCT".toList t then
    .closeScope
  else if charsPrefixB "MODULE ".toList t then
    .openScope (String.mk (((t.drop 7).dropWhile (fun c => c == ' ' || c == '\t')).takeWhile wordDotChar))
  else if charsPrefixB "STRUCT ".toList t then
    .openScope (String.mk (((t.drop 7).dropWhile (fun c => c == ' ' || c == '\t')).takeWhile wordDotChar))
  else .other

/-- The stack loop of getModule (grep.ts lines 542-562): an open line pushes
the captured name (modules.push), a close line pops the last entry
(modules.pop, a silent no-op on an empty stack), other lines do nothing. -/
def stackRun : List String → List LineEvent → List String
  | s, [] => s
  | s, .openScope n :: es => stackRun (s ++ [n]) es
  | s, .closeScope :: es => stackRun s.dropLast es
  | s, .other :: es => stackRun s es

/-- getModule of grep.ts: scan lines 0..len (exclusive) keeping the stack of
open module/struct names and return them joined with ".". -/
def getModule (lines : List String) (len : Nat) : String :=
  String.intercalate "." (stackRun [] ((lines.take len).map lineEvent))

/-- Number of open events in a list. -/
def opensCount : List LineEvent → Nat
  | [] => 0
  | .openScope _ :: es => opensCount es + 1
  | .closeScope :: es => opensCount es
  | .other :: es => opensCount es

/-- Number of close events in a list. -/
def closesCount : List LineEvent → Nat
  | [] => 0
  | .openScope _ :: es => closesCount es
  | .closeScope :: es => closesCount es + 1
  | .other :: es => closesCount es

/-- Every prefix of the event list closes at most as many scopes as it has
opened, starting from d already-open scopes. -/
def prefixOkB : Nat → List LineEvent → Bool
  | _, [] => true
  | d, .openScope _ :: es => prefixOkB (d + 1) es
  | d, .closeScope :: es => decide (0 < d) && prefixOkB (d - 1) es
  | d, .other :: es => prefixOkB d es

/-- Balanced MODULE/ENDMODULE (and STRUCT/ENDSTRUCT) nesting: no close
without a matching earlier open, and equally many opens and closes. -/
def balancedB (es : List LineEvent) : Bool :=
  prefixOkB 0 es && (opensCount es == closesCount es)

/-- The index of the first '.' in the characters, modelling the JS
String.indexOf('.') used by getLastLabelPart and getRegExFromLabel
(none plays the role of the -1 result). -/
def idxOfDot : List Char → Option Nat
  | [] => none
  | c :: cs => if c == '.' then some 0 else (idxOfDot cs).map (· + 1)

/-- getLastLabelPart of grep.ts: everything after the first '.' of the
label, or the whole label if it has no dot. -/
def getLastLabelPart (label : String) : String :=
  match idxOfDot label.toList with
  | none => label
  | some k => String.mk (label.toList.drop (k + 1))

/-- Modelled from the spec: CommonRegexes.regexPrepareFuzzy
(regexes/commonregexes.ts is not in the snapshot) precedes every character
of the string with the wildcard \w* (cf. the examples in grep.ts's doc
comment: "check_all" becomes "\w*c\w*h\w*e\w*c\w*k\w*_\w*a\w*l\w*l"). -/
def regexPrepareFuzzy (s : String) : String :=
  s.toList.foldl (fun acc c => acc ++ "\\w*" ++ c.toString) ""

/-- The prefix escape of getRegExFromLabel:
prefix.replace(/(\.)/g, "\\.") turns every '.' into the literal pattern
"\.". -/
def escapeDots (s : String) : String :=
  s.toList.foldl (fun acc c => acc ++ (if c == '.' then "\\." else c.toString)) ""

/-- getRegExFromLabel of grep.ts as the pair (pattern source, ignoreCase):
split the label at the FIRST '.' (label.indexOf), keep the prefix literal
with dots escaped, make the remaining part fuzzy and append a trailing
wildcard; the regex is built with the 'i' flag. -/
def getRegExFromLabel (label : String) : String × Bool :=
  let chars := label.toList
  let split :=
    match idxOfDot chars with
    | none => ("", label)
    | some k => (String.mk (chars.take (k + 1)), String.mk (chars.drop (k + 1)))
  let lastRegexStr := regexPrepareFuzzy split.2 ++ "\\w*"
  (escapeDots split.1 ++ lastRegexStr, true)

/-- The pattern the claim describes, built by splitting at the LAST dot:
the prefix up to and including the last dot literal (dots escaped), only the
segment after the last dot fuzzied, then the trailing wildcard. -/
def specRegExFromLabelLastDot (label : String) : String × Bool :=
  let chars := label.toList
  match chars.reverse.findIdx? (· == '.') with
  | none => (regexPrepareFuzzy label ++ "\\w*", true)
  | some rk =>
    let k := chars.length - 1 - rk
    (escapeDots (String.mk (chars.take (k + 1))) ++
      (regexPrepareFuzzy (String.mk (chars.drop (k + 1))) ++ "\\w*"), true)

/-- Whether a character is not a dot. -/
def notDot (c : Char) : Bool := !(c == '.')

/-- The amended description: split at the FIRST dot.  The prefix is the
longest dot-free prefix plus that first dot (so it contains exactly one
dot, which is escaped); everything after the first dot is fuzzied. -/
def specRegExFromLabelFirstDot (label : String) : String × Bool :=
  let pre := label.toList.takeWhile notDot
  match label.toList.dropWhile notDot with
  | [] => (regexPrepareFuzzy label ++ "\\w*", true)
  | _ :: tail =>
    (escapeDots (String.mk (pre ++ ['.'])) ++
      (regexPrepareFuzzy (String.mk tail) ++ "\\w*"), true)

/-- The (label, moduleLabel) pair returned by the external
getLabelAndModuleLabelFromFileInfo of grepextra.ts. -/
structure MLabel where
  label : String
  moduleLabel : String
deriving DecidableEq

/-- The collaborators consumed by reduceLocations: the line source
(getLinesForFile: live buffer or disk), the per-file module/struct event
analysis (getModuleFileInfo of grepextra.ts, producing a value of some type
M), the position resolver (getLabelAndModuleLabelFromFileInfo of
grepextra.ts, with the regexLbls/regexEnd parameters folded in) and the JS
case-insensitive regex exec test used in loose mode (pattern, input). -/
structure ReduceEnv (M : Type) where
  fs : String → List String
  analyze : List String → M
  resolve : List String → M → Nat → Nat → MLabel
  execi : String → String → Bool

/-- The value obtained by reading filesInfo[fileName]: either a stored
FileInfo (lines plus module/struct events) or, when the name collides with a
property inherited from Map.prototype / Object.prototype (the cache is a JS
Map indexed with bracket property access, grep.ts line 466), that inherited
member - a truthy non-FileInfo value. -/
inductive CacheVal (M : Type) where
  | info (lines : List String) (infos : M)
  | builtin
deriving DecidableEq

/-- The enumerable members a string key can hit on the prototype chain of a
JS Map instance (Map.prototype and Object.prototype); reading such a key on
an otherwise-empty map yields a truthy value, not undefined. -/
def mapProtoNames : List String :=
  ["get", "set", "has", "delete", "clear", "forEach", "entries", "keys",
   "values", "size", "constructor", "toString", "toLocaleString", "valueOf",
   "hasOwnProperty", "isPrototypeOf", "propertyIsEnumerable", "__proto__",
   "__defineGetter__", "__defineSetter__", "__lookupGetter__",
   "__lookupSetter__"]

/-- Instrumented state of one reduceLocations call: the filesInfo own
properties in insertion order, the files read so far (in order), and for
every visited location the fileInfo value its iteration obtained. -/
structure RState (M : Type) where
  cache : List (String × List String × M)
  reads : List String
  used : List (String × CacheVal M)
deriving DecidableEq

/-- Reading filesInfo[fileName]: an own property wins, otherwise an
inherited Map.prototype member is returned for the colliding names, and
undefined (none) only for a genuinely fresh key. -/
def cacheLookup {M : Type} (c : List (String × List String × M)) (k : String) :
    Option (CacheVal M) :=
  match c.lookup k with
  | some (lines, mi) => some (.info lines mi)
  | none => if k ∈ mapProtoNames then some .builtin else none

/-- The exact-mode four-way match test of reduceLocations (grep.ts lines
493-498): keep when any of the four label/moduleLabel cross equalities
holds. -/
def keepExact (cand origin : MLabel) : Bool :=
  cand.label == origin.label || cand.moduleLabel == origin.moduleLabel ||
    cand.moduleLabel == origin.label || cand.label == origin.moduleLabel

/-- The loose-mode test of reduceLocations (grep.ts lines 500-506): the two
fuzzy regexes (from the origin's label and moduleLabel) are exec'd against
the candidate's label and moduleLabel in the same four-way cross pattern. -/
def keepLoose (execi : String → String → Bool) (rl rml : String)
    (cand : MLabel) : Bool :=
  execi rl cand.label || execi rml cand.moduleLabel ||
    execi rl cand.moduleLabel || execi rml cand.label

/-- One iteration of the backward loop of reduceLocations for one location:
read or fill the filesInfo cache for the location's file, then drop the
location if removeOwnLocation is set and it lies on the origin's line (the
source guards this with fileName == fileName, a comparison of the variable
with itself, so the origin's file is not actually consulted), otherwise
resolve the location's labels and keep it iff the exact or loose test
succeeds.  When the cache access returned an inherited Map.prototype member
instead of a FileInfo, the subsequent field accesses operate on a function
object; the embedding reports this as an error.  cacheFetch models the
filesInfo[fileName] read and, on a miss, the read-analyze-store sequence of
grep.ts lines 466-475. -/
def cacheFetch {M : Type} (env : ReduceEnv M) (st : RState M)
    (fileName : String) : RState M × CacheVal M :=
  match cacheLookup st.cache fileName with
  | some v => ({ st with used := st.used ++ [(fileName, v)] }, v)
  | none =>
    let lines := env.fs fileName
    let mi := env.analyze lines
    ({ cache := st.cache ++ [(fileName, lines, mi)],
       reads := st.reads ++ [fileName],
       used := st.used ++ [(fileName, CacheVal.info lines mi)] },
      CacheVal.info lines mi)

/-- The rest of the iteration after the cache access (see visitLoc). -/
def visitLoc {M : Type} (env : ReduceEnv M) (origin : MLabel)
    (originLine : Nat) (removeOwn checkFullName : Bool) (rl rml : String)
    (st : RState M) (loc : GrepLocation) :
    RState M × Except Unit (Option GrepLocation) :=
  let step := cacheFetch env st loc.file
  let st1 := step.1
  if removeOwn && (loc.line == originLine) then (st1, .ok none)
  else
    match step.2 with
    | .info lines mi =>
      let ml := env.resolve lines mi loc.line loc.colStart
      let loc' := { loc with label := some ml.label,
                             moduleLabel := some ml.moduleLabel }
      let keep := if checkFullName then keepExact ml origin
                  else keepLoose env.execi rl rml ml
      (st1, .ok (if keep then some loc' else none))
    | .builtin => (st1, .error ())

/-- The backward in-place-splice loop of reduceLocations: the last location
is visited first; surviving locations keep their original order.  An
exception aborts the remaining (earlier) iterations. -/
def reduceLoop {M : Type} (env : ReduceEnv M) (origin : MLabel)
    (originLine : Nat) (removeOwn checkFullName : Bool) (rl rml : String) :
    List GrepLocation → RState M → RState M × Except Unit (List GrepLocation)
  | [], st => (st, .ok [])
  | loc :: rest, st =>
    match reduceLoop env origin originLine removeOwn checkFullName rl rml rest st with
    | (st1, .error e) => (st1, .error e)
    | (st1, .ok kept) =>
      match visitLoc env origin originLine removeOwn checkFullName rl rml st1 loc with
      | (st2, .error e) => (st2, .error e)
      | (st2, .ok none) => (st2, .ok kept)
      | (st2, .ok (some loc')) => (st2, .ok (loc' :: kept))

/-- reduceLocations of grep.ts, instrumented with the cache/read/use trace:
resolve the origin's (label, moduleLabel) from a fresh read of the origin
file, build the two fuzzy regexes (used in loose mode), then run the
backward filtering loop over the locations with an initially empty
filesInfo map. -/
def reduceLocations {M : Type} (env : ReduceEnv M)
    (locations : List GrepLocation) (docFileName : String) (position : Pos)
    (removeOwnLocation checkFullName : Bool) :
    RState M × Except Unit (List GrepLocation) :=
  let docLines := env.fs docFileName
  let searchLabel := env.resolve docLines (env.analyze docLines)
    position.line position.character
  let rl := (getRegExFromLabel searchLabel.label).1
  let rml := (getRegExFromLabel searchLabel.moduleLabel).1
  reduceLoop env searchLabel position.line removeOwnLocation checkFullName
    rl rml locations ⟨[], [], []⟩

/-- The origin's resolved (label, moduleLabel) of a reduceLocations call. -/
def originLabel {M : Type} (env : ReduceEnv M) (docFileName : String)
    (position : Pos) : MLabel :=
  env.resolve (env.fs docFileName) (env.analyze (env.fs docFileName))
    position.line position.character

/-- The (label, moduleLabel) a location resolves to: the resolver applied to
its file's fresh lines and events at the location's start position. -/
def resolveML {M : Type} (env : ReduceEnv M) (file : String)
    (line col : Nat) : MLabel :=
  env.resolve (env.fs file) (env.analyze (env.fs file)) line col

/-- A location with its resolved label/moduleLabel fields assigned, as
reduceLocations returns it. -/
def resolveLoc {M : Type} (env : ReduceEnv M) (loc : GrepLocation) :
    GrepLocation :=
  let ml := resolveML env loc.file loc.line loc.colStart
  { loc with label := some ml.label, moduleLabel := some ml.moduleLabel }

/-- The pure per-location decision the loop implements on cache-consistent
runs: own-line removal first, then the exact or loose four-way test. -/
def reduceDecide {M : Type} (env : ReduceEnv M) (origin : MLabel)
    (originLine : Nat) (removeOwn checkFullName : Bool) (rl rml : String)
    (loc : GrepLocation) : Option GrepLocation :=
  if removeOwn && (loc.line == originLine) then none
  else
    let ml := resolveML env loc.file loc.line loc.colStart
    let keep := if checkFullName then keepExact ml origin
                else keepLoose env.execi rl rml ml
    if keep then some (resolveLoc env loc) else none

/-- A vscode.Range as used by renameInFile: only start.line,
start.character and end.character are consulted. -/
structure VsRange where
  startPos : Pos
  endPos : Pos
deriving DecidableEq

/-- The line splice of renameInFile (RenameProvider.ts line 139):
line.substring(0, clmn) + newName + line.substring(clmnEnd); JS substring
clamps out-of-range indices like take/drop do. -/
def spliceLine (line : String) (clmn clmnEnd : Nat) (newName : String) :
    String :=
  String.mk (line.toList.take clmn) ++ newName ++
    String.mk (line.toList.drop clmnEnd)

/-- The change loop of renameInFile (RenameProvider.ts lines 127-141),
parameterised by the include-directive line test (CommonRegexes.regexInclude
is external): for every range in order, look at the CURRENT text of the
range's line; skip the range when the line matches the include pattern,
otherwise splice by column range.  A range whose line index is out of
bounds makes lines[row] undefined and the subsequent substring call throw
(modelled as none). -/
def renameLines (inc : String → Bool) (newName : String) :
    List String → List VsRange → Option (List String)
  | ls, [] => some ls
  | ls, range :: rest =>
    let row := range.startPos.line
    match ls[row]? with
    | none => none
    | some line =>
      if inc line then renameLines inc newName ls rest
      else renameLines inc newName
        (ls.set row
          (spliceLine line range.startPos.character range.endPos.character
            newName)) rest

/-- renameInFile of RenameProvider.ts: apply all changes to the file's
lines, then join them back with newlines for the write. -/
def renameInFile (inc : String → Bool) (lines : List String)
    (changes : List VsRange) (newName : String) : Option String :=
  (renameLines inc newName lines changes).map (String.intercalate "\n")

/-- Modelled from the spec: CommonRegexes.regexInclude
(regexes/commonregexes.ts is not in the snapshot) matches an include
directive, modelled as a line whose first word after leading blanks is
"include".  Used only to instantiate witnesses. -/
def modelIncludeLine (s : String) : Bool :=
  charsPrefixB "include".toList (s.toList.dropWhile (fun c => c == ' ' || c == '\t'))

/-- Literal search helper for concrete regexes: the first index at or after
the running position where pat occurs in the remaining characters. -/
def litFindAux (pat : List Char) : List Char → Nat → Option Nat
  | [], i => if charsPrefixB pat [] then some i else none
  | c :: cs, i =>
    if charsPrefixB pat (c :: cs) then some i else litFindAux pat cs (i + 1)

/-- A concrete global JS regex matching the literal pat (no capture
groups), used to instantiate witnesses. -/
def jsRegexLit (pat : String) : JsRegex :=
  { global := true,
    find := fun s li =>
      (litFindAux pat.toList (s.toList.drop li) li).map
        (fun j => ⟨j, pat.length, 0⟩) }

/-- The non-global variant of jsRegexLit. -/
def jsRegexLit1 (pat : String) : JsRegex :=
  { global := false, find := (jsRegexLit pat).find }

/-- A concrete grep environment: one disk file "f" whose content is
"ab ab", no open documents, comment stripping the identity. -/
def wEnvGrep : GrepEnv :=
  { findFiles := .ok ["f"],
    docs := [],
    docLines := fun _ => [],
    readFile := fun p => if p == "f" then .ok "ab ab" else .error (),
    strip := id }

/-- A grep environment whose second file's disk read throws. -/
def wEnvGrepFail : GrepEnv :=
  { findFiles := .ok ["f", "g", "h"],
    docs := [],
    docLines := fun _ => [],
    readFile := fun p => if p == "g" then .error () else .ok "ab ab",
    strip := id }

/-- Replaces the candidate file enumeration of a grep environment. -/
def setFiles (env : GrepEnv) (files : List String) : GrepEnv :=
  { env with findFiles := .ok files }

/-- A concrete reduction environment: the resolver yields
(init, audio.init) on line 1 and (init, sound.init) elsewhere. -/
def wEnvReduce : ReduceEnv Unit :=
  { fs := fun _ => ["MODULE audio", " init:"],
    analyze := fun _ => (),
    resolve := fun _ _ ln _ =>
      if ln == 1 then ⟨"init", "audio.init"⟩ else ⟨"init", "sound.init"⟩,
    execi := fun _ _ => false }

/-- A concrete location in file b.asm at line 2, column 4. -/
def wLocB : GrepLocation :=
  { file := "b.asm", line := 2, colStart := 4, colEnd := 8,
    fm := { filePath := "b.asm", line := 2, start := 4, endCol := 8,
            lineContents := "    init", m := ⟨4, 4, 0⟩ },
    label := none, moduleLabel := none }

/-- A concrete location in file b.asm at line 0 (the origin's line number,
but a different file). -/
def wLocB0 : GrepLocation :=
  { file := "b.asm", line := 0, colStart := 4, colEnd := 8,
    fm := { filePath := "b.asm", line := 0, start := 4, endCol := 8,
            lineContents := "    init", m := ⟨4, 4, 0⟩ },
    label := none, moduleLabel := none }

/-- A concrete location whose file path is "get", colliding with
Map.prototype.get. -/
def wLocGet (ln : Nat) : GrepLocation :=
  { file := "get", line := ln, colStart := 0, colEnd := 4,
    fm := { filePath := "get", line := ln, start := 0, endCol := 4,
            lineContents := "init", m := ⟨0, 4, 0⟩ },
    label := none, moduleLabel := none }

/-- Cache consistency: every filesInfo own property stores exactly the
lines read from its file and their analysis. -/
def cacheConsistent {M : Type} (env : ReduceEnv M)
    (c : List (String × List String × M)) : Prop :=
  ∀ e ∈ c, e.2.1 = env.fs e.1 ∧ e.2.2 = env.analyze (env.fs e.1)

/-- The running invariant of the reduction loop's instrumented state:
the cache is consistent, no file was read twice, and every read file has a
cache entry. -/
def rstateInv {M : Type} (env : ReduceEnv M) (st : RState M) : Prop :=
  cacheConsistent env st.cache ∧ st.reads.Nodup ∧
    ∀ f ∈ st.reads, (st.cache.lookup f).isSome

deriving instance DecidableEq for Except

/-! Theorems.  Helper lemmas first, then one theorem per claim (with its
witness or counterexample where required). -/

theorem mem_firstKeys_aux (ks : List String) (acc : List String) (x : String) :
    (x ∈ ks.foldl (fun a k => if k ∈ a then a else a ++ [k]) acc) ↔
      x ∈ acc ∨ x ∈ ks := by
  induction ks generalizing acc with
  | nil => simp
  | cons k rest ih =>
    simp only [List.foldl_cons, ih]
    by_cases hk : k ∈ acc
    · simp only [if_pos hk, List.mem_cons]
      constructor
      · rintro (h | h)
        · exact Or.inl h
        · exact Or.inr (Or.inr h)
      · rintro (h | h | h)
        · exact Or.inl h
        · exact Or.inl (h ▸ hk)
        · exact Or.inr h
    · simp only [if_neg hk, List.mem_append, List.mem_singleton, List.mem_cons]
      tauto

theorem mem_firstKeys (ks : List String) (x : String) :
    x ∈ firstKeys ks ↔ x ∈ ks := by
  simpa using mem_firstKeys_aux ks [] x

theorem nodup_firstKeys_aux (ks : List String) (acc : List String)
    (h : acc.Nodup) :
    (ks.foldl (fun a k => if k ∈ a then a else a ++ [k]) acc).Nodup := by
  induction ks generalizing acc with
  | nil => simpa using h
  | cons k rest ih =>
    simp only [List.foldl_cons]
    by_cases hk : k ∈ acc
    · simpa [if_pos hk] using ih acc h
    · refine ih _ ?_
      simp [List.nodup_append, h, hk, List.Disjoint]
      intro a ha hak
      exact hk (hak ▸ ha)

theorem nodup_firstKeys (ks : List String) : (firstKeys ks).Nodup :=
  nodup_firstKeys_aux ks [] List.nodup_nil

theorem firstKeys_concat (ks : List String) (k : String) :
    firstKeys (ks ++ [k]) =
      if k ∈ firstKeys ks then firstKeys ks else firstKeys ks ++ [k] := by
  simp [firstKeys, List.foldl_append]

theorem lastWith_concat {α : Type} (locs : List α) (h : α → String) (x : α)
    (k : String) :
    lastWith (locs ++ [x]) h k =
      if h x == k then some x else lastWith locs h k := by
  unfold lastWith
  rw [List.filter_append]
  by_cases hx : h x == k
  · simp [hx]
  · simp [List.filter_cons, hx]

theorem jsMapSet_notmem {V : Type} (m : List (String × V)) (k : String)
    (v : V) (h : ∀ e ∈ m, e.1 ≠ k) : jsMapSet m k v = m ++ [(k, v)] := by
  induction m with
  | nil => rfl
  | cons e rest ih =>
    have he : e.1 ≠ k := h e (List.mem_cons_self e rest)
    have : (e.1 == k) = false := beq_false_of_ne he
    simp only [jsMapSet]
    rw [this]
    simp only [Bool.false_eq_true, if_false, List.cons_append, List.cons.injEq,
      true_and]
    exact ih (fun e' he' => h e' (List.mem_cons_of_mem e he'))

theorem filterMap_keyfun_set {V : Type} (ks : List String)
    (g g' : String → Option (String × V)) (k : String) (v : V)
    (hNd : ks.Nodup) (hg : ∀ x ∈ ks, ∃ w, g x = some (x, w))
    (hg'k : g' k = some (k, v)) (hg'ne : ∀ x, x ≠ k → g' x = g x)
    (hk : k ∈ ks) :
    jsMapSet (ks.filterMap g) k v = ks.filterMap g' := by
  induction ks with
  | nil => cases hk
  | cons x rest ih =>
    obtain ⟨w, hw⟩ := hg x (List.mem_cons_self x rest)
    have hNdr : rest.Nodup := hNd.of_cons
    by_cases hxk : x = k
    · subst hxk
      have hxrest : x ∉ rest := (List.nodup_cons.mp hNd).1
      rw [List.filterMap_cons_some hw, List.filterMap_cons_some hg'k]
      simp only [jsMapSet, beq_self_eq_true, if_true]
      refine congrArg _ ?_
      refine List.filterMap_congr ?_
      intro y hy
      exact (hg'ne y (fun hyx => hxrest (hyx ▸ hy))).symm
    · have hkrest : k ∈ rest := by
        rcases List.mem_cons.mp hk with h | h
        · exact absurd h.symm hxk
        · exact h
      have hgx : g' x = g x := hg'ne x hxk
      rw [List.filterMap_cons_some hw,
        List.filterMap_cons_some (hgx ▸ hw)]
      simp only [jsMapSet]
      have : (x == k) = false := beq_false_of_ne hxk
      rw [this]
      simp only [Bool.false_eq_true, if_false, List.cons.injEq, true_and]
      exact ih hNdr (fun y hy => hg y (List.mem_cons_of_mem x hy)) hkrest

theorem lastWith_isSome {α : Type} (locs : List α) (h : α → String)
    (k : String) (hk : k ∈ locs.map h) : ∃ w, lastWith locs h k = some w := by
  obtain ⟨a, ha, hak⟩ := List.mem_map.mp hk
  have : a ∈ locs.filter (fun x => h x == k) :=
    List.mem_filter.mpr ⟨ha, by simp [hak]⟩
  have hne : locs.filter (fun x => h x == k) ≠ [] := by
    intro hnil
    rw [hnil] at this
    cases this
  obtain ⟨w, hw⟩ := Option.isSome_iff_exists.mp (List.getLast?_isSome.mpr hne)
  exact ⟨w, hw⟩

theorem foldl_jsMapSet_char {α : Type} (locs : List α) (h : α → String) :
    locs.foldl (fun m loc => jsMapSet m (h loc) loc) [] =
      (firstKeys (locs.map h)).filterMap
        (fun k => (lastWith locs h k).map (fun v => (k, v))) := by
  induction locs using List.reverseRecOn with
  | nil => rfl
  | append_singleton init x ih =>
    rw [List.foldl_append, List.foldl_cons, List.foldl_nil, ih,
      List.map_append, List.map_singleton, firstKeys_concat]
    by_cases hmem : h x ∈ firstKeys (init.map h)
    · rw [if_pos hmem]
      refine filterMap_keyfun_set _ _ _ (h x) x (nodup_firstKeys _) ?_ ?_ ?_ hmem
      · intro y hy
        obtain ⟨w, hw⟩ :=
          lastWith_isSome init h y ((mem_firstKeys _ y).mp hy)
        exact ⟨w, by simp [hw]⟩
      · simp [lastWith_concat]
      · intro y hyx
        have : (h x == y) = false := beq_false_of_ne (fun e => hyx e.symm)
        simp [lastWith_concat, this]
    · rw [if_neg hmem]
      have hset : jsMapSet
          ((firstKeys (init.map h)).filterMap
            (fun k => (lastWith init h k).map (fun v => (k, v)))) (h x) x =
          ((firstKeys (init.map h)).filterMap
            (fun k => (lastWith init h k).map (fun v => (k, v)))) ++
            [(h x, x)] := by
        refine jsMapSet_notmem _ _ _ ?_
        intro e he
        obtain ⟨a, ha, hae⟩ := List.mem_filterMap.mp he
        obtain ⟨w, hw⟩ := Option.map_eq_some'.mp hae
        have h1a : e.1 = a := by rw [← hw.2]
        intro hek
        have hax : a = h x := by rw [← h1a, hek]
        exact hmem (hax ▸ ha)
      rw [hset, List.filterMap_append]
      have h1 : (firstKeys (init.map h)).filterMap
          (fun k => (lastWith (init ++ [x]) h k).map (fun v => (k, v))) =
          (firstKeys (init.map h)).filterMap
          (fun k => (lastWith init h k).map (fun v => (k, v))) := by
        refine List.filterMap_congr ?_
        intro y hy
        have hyne : (h x == y) = false := by
          refine beq_false_of_ne ?_
          intro hxy
          exact hmem (hxy ▸ hy)
        simp [lastWith_concat, hyne]
      rw [h1]
      have h2 : List.filterMap
          (fun k => (lastWith (init ++ [x]) h k).map (fun v => (k, v)))
          [h x] = [(h x, x)] := by
        simp [lastWith_concat]
      rw [h2]

theorem filterMap_snd_of_keyed {V : Type} (ks : List String)
    (f : String → Option V) :
    (ks.filterMap (fun k => (f k).map (fun v => (k, v)))).map Prod.snd =
      ks.filterMap f := by
  induction ks with
  | nil => rfl
  | cons k rest ih =>
    cases hf : f k with
    | none => simp [List.filterMap_cons, hf, ih]
    | some v => simp [List.filterMap_cons, hf, ih]

/-- C10: removeDuplicates keeps exactly one location per distinct key: the
output lists, for each distinct key in order of the key's first occurrence
in the input, the location of that key's last occurrence in the input. -/
theorem C10_removeDuplicates_last_occurrence_first_key_order {α : Type}
    (locs : List α) (handler : α → String) :
    removeDuplicates locs handler =
      (firstKeys (locs.map handler)).filterMap (lastWith locs handler) ∧
    (firstKeys (locs.map handler)).Nodup ∧
    (∀ k ∈ firstKeys (locs.map handler),
      ∃ w, lastWith locs handler k = some w) := by
  refine ⟨?_, nodup_firstKeys _, ?_⟩
  · rw [removeDuplicates, foldl_jsMapSet_char, filterMap_snd_of_keyed]
  · intro k hk
    exact lastWith_isSome locs handler k ((mem_firstKeys _ k).mp hk)

theorem lastWith_key {α : Type} (locs : List α) (h : α → String) (k : String)
    (w : α) (hw : lastWith locs h k = some w) : h w = k := by
  have hmem : w ∈ locs.filter (fun x => h x == k) := by
    have hwmem : w ∈ (locs.filter (fun x => h x == k)).getLast? :=
      Option.mem_def.mpr hw
    obtain ⟨hne, hx⟩ := List.mem_getLast?_eq_getLast hwmem
    exact hx ▸ List.getLast_mem hne
  have := (List.mem_filter.mp hmem).2
  exact eq_of_beq this

theorem map_key_filterMap {α : Type} (h : α → String) (ks : List String)
    (f : String → Option α) (hkey : ∀ k w, f k = some w → h w = k) :
    (ks.filterMap f).map h = ks.filter (fun k => (f k).isSome) := by
  induction ks with
  | nil => rfl
  | cons k rest ih =>
    cases hf : f k with
    | none => simp [List.filterMap_cons, List.filter_cons, hf, ih]
    | some w =>
      simp [List.filterMap_cons, List.filter_cons, hf, ih, hkey k w hf]

theorem removeDuplicates_eq {α : Type} (locs : List α) (handler : α → String) :
    removeDuplicates locs handler =
      (firstKeys (locs.map handler)).filterMap (lastWith locs handler) := by
  rw [removeDuplicates, foldl_jsMapSet_char, filterMap_snd_of_keyed]

theorem nodup_keys_removeDuplicates {α : Type} (locs : List α)
    (handler : α → String) :
    ((removeDuplicates locs handler).map handler).Nodup := by
  rw [removeDuplicates_eq,
    map_key_filterMap handler _ _ (lastWith_key locs handler)]
  exact (nodup_firstKeys _).filter _

theorem grepKey_eq_of_triple (a b : GrepLocation)
    (h : grepTriple a = grepTriple b) : grepKey a = grepKey b := by
  simp only [grepTriple, Prod.mk.injEq] at h
  obtain ⟨h1, h2, h3⟩ := h
  simp [grepKey, h1, h2, h3]

/-- C7: grepMultiple never returns two locations with the same
(file path, line, start column) triple; and in the concrete run where a
global and a non-global regex both match the literal "ab" at (f, 0, 0),
exactly one location of that triple is returned although both greps
produced one. -/
theorem C7_grepMultiple_dedup_by_triple :
    (∀ (env : GrepEnv) (regexes : List JsRegex) (root : String),
      List.Pairwise (fun a b => grepTriple a ≠ grepTriple b)
        (grepMultiple env regexes root)) ∧
    ((grep wEnvGrep (jsRegexLit "ab") "").countP
      (fun l => l.fm.filePath == "f" && l.fm.line == 0 && l.fm.start == 0)
        = 1 ∧
     (grep wEnvGrep (jsRegexLit1 "ab") "").countP
      (fun l => l.fm.filePath == "f" && l.fm.line == 0 && l.fm.start == 0)
        = 1 ∧
     (grepMultiple wEnvGrep [jsRegexLit "ab", jsRegexLit1 "ab"] "").countP
      (fun l => l.fm.filePath == "f" && l.fm.line == 0 && l.fm.start == 0)
        = 1) := by
  constructor
  · intro env regexes root
    unfold grepMultiple
    by_cases hlen : regexes.length > 0
    · simp only [if_pos hlen]
      have hnd := nodup_keys_removeDuplicates
        (regexes.flatMap (fun r => grep env r root)) grepKey
      have hpw := List.pairwise_map.mp hnd
      refine hpw.imp ?_
      intro a b hne htr
      exact hne (grepKey_eq_of_triple a b htr)
    · have : regexes = [] := List.length_eq_zero.mp (Nat.eq_zero_of_not_pos hlen)
      subst this
      simp
  · refine ⟨by decide, by decide, by decide⟩

theorem grepScanFiles_ok (env : GrepEnv) (r : JsRegex) (root : String)
    (fs : List String) (m : List (String × List FileMatch))
    (h : ∀ f ∈ fs, grepStepFails env root f = false) :
    grepScanFiles env r root fs m =
      (fs.foldl (grepStep env r root) m, false) := by
  induction fs generalizing m with
  | nil => rfl
  | cons f rest ih =>
    have hf : grepStepFails env root f = false := h f (List.mem_cons_self f rest)
    simp only [grepScanFiles, hf, Bool.false_eq_true, if_false, List.foldl_cons]
    exact ih _ (fun g hg => h g (List.mem_cons_of_mem f hg))

theorem grepScanFiles_abort (env : GrepEnv) (r : JsRegex) (root : String)
    (pre post : List String) (bad : String)
    (m : List (String × List FileMatch))
    (hpre : ∀ f ∈ pre, grepStepFails env root f = false)
    (hbad : grepStepFails env root bad = true) :
    grepScanFiles env r root (pre ++ bad :: post) m =
      (pre.foldl (grepStep env r root) m, true) := by
  induction pre generalizing m with
  | nil => simp [grepScanFiles, hbad]
  | cons f rest ih =>
    have hf : grepStepFails env root f = false :=
      hpre f (List.mem_cons_self f rest)
    simp only [List.cons_append, grepScanFiles, hf, Bool.false_eq_true,
      if_false, List.foldl_cons]
    exact ih _ (fun g hg => hpre g (List.mem_cons_of_mem f hg))

theorem grepStep_setFiles (env : GrepEnv) (files : List String) (r : JsRegex)
    (root : String) :
    grepStep (setFiles env files) r root = grepStep env r root := rfl

theorem grepScanFiles_setFiles (env : GrepEnv) (files : List String)
    (r : JsRegex) (root : String) (fs : List String)
    (m : List (String × List FileMatch)) :
    grepScanFiles (setFiles env files) r root fs m =
      grepScanFiles env r root fs m := by
  induction fs generalizing m with
  | nil => rfl
  | cons f rest ih =>
    simp only [grepScanFiles]
    have h1 : grepStepFails (setFiles env files) root f =
        grepStepFails env root f := rfl
    rw [h1, grepStep_setFiles]
    by_cases hf : grepStepFails env root f = true
    · simp [hf]
    · simp only [hf, Bool.false_eq_true, if_false]
      exact ih _

/-- C8: grep never propagates an exception.  A failing file enumeration
yields the empty result; a file whose disk read throws stops the scan and
grep returns exactly the locations accumulated from the files processed
before the failure (that is, grep behaves as if the enumeration had ended
just before the failing file). -/
theorem C8_grep_swallows_exceptions :
    (∀ (env : GrepEnv) (r : JsRegex) (root : String),
      env.findFiles = .error () → grep env r root = []) ∧
    (∀ (env : GrepEnv) (r : JsRegex) (root : String)
      (files pre post : List String) (bad : String),
      env.findFiles = .ok files → files = pre ++ bad :: post →
      (∀ f ∈ pre, grepStepFails env root f = false) →
      grepStepFails env root bad = true →
      grep env r root = grep (setFiles env pre) r root) := by
  constructor
  · intro env r root h
    simp [grep, h, matchesToLocations]
  · intro env r root files pre post bad hff hsplit hpre hbad
    subst hsplit
    unfold grep
    rw [hff]
    show matchesToLocations (grepScanFiles env r root (pre ++ bad :: post) []).1 =
      matchesToLocations (grepScanFiles (setFiles env pre) r root pre []).1
    rw [grepScanFiles_abort env r root pre post bad [] hpre hbad,
      grepScanFiles_setFiles, grepScanFiles_ok env r root pre [] hpre]

/-- Witness for C8: in the concrete environment whose second file's read
throws, grep returns exactly the locations of the first file. -/
theorem C8_grep_swallows_exceptions_witness :
    grep wEnvGrepFail (jsRegexLit "ab") "" =
      grep (setFiles wEnvGrepFail ["f"]) (jsRegexLit "ab") "" :=
  C8_grep_swallows_exceptions.2 wEnvGrepFail (jsRegexLit "ab") ""
    ["f", "g", "h"] ["f"] ["h"] "g" rfl rfl (by decide) (by decide)

theorem scanLineFound_two (r : JsRegex) (s : String) (m1 m2 : RMatch)
    (hg : r.global = true)
    (h0 : r.find s 0 = some m1)
    (h1 : r.find s (m1.index + m1.len) = some m2)
    (h2 : r.find s (m2.index + m2.len) = none)
    (hl1 : 0 < m1.len) (hl2 : 0 < m2.len)
    (hord : m1.index + m1.len ≤ m2.index)
    (hin : m2.index + m2.len ≤ s.length) :
    scanLineFound r s = [m1, m2] := by
  have hfuel : s.length + 1 = (s.length - 2) + 3 := by omega
  unfold scanLineFound
  rw [hfuel]
  simp only [scanLineGo, h0, h1, h2, hg, if_true, List.nil_append,
    List.append_nil, List.singleton_append]

theorem gdl_append (r : JsRegex) (p : String) (xs ys : List String) :
    ∀ i, grepDiskLines r p i (xs ++ ys) =
      grepDiskLines r p i xs ++ grepDiskLines r p (i + xs.length) ys := by
  induction xs with
  | nil => intro i; simp [grepDiskLines]
  | cons x rest ih =>
    intro i
    have harith : i + 1 + rest.length = i + (rest.length + 1) := by omega
    simp only [List.cons_append, grepDiskLines, List.length_cons,
      List.append_eq, ih (i + 1), harith, List.append_assoc]

theorem gdl_line_eq (r : JsRegex) (p : String) (xs : List String) :
    ∀ i, ∀ fm ∈ grepDiskLines r p i xs, i ≤ fm.line ∧ fm.line < i + xs.length := by
  induction xs with
  | nil => intro i fm h; cases h
  | cons x rest ih =>
    intro i fm h
    simp only [grepDiskLines, List.mem_append] at h
    rcases h with h | h
    · by_cases hx : x.length = 0
      · rw [if_pos hx] at h; cases h
      · rw [if_neg hx] at h
        obtain ⟨mm, hmmm, hmm⟩ := List.mem_map.mp h
        subst hmm
        simp [mkFileMatch, List.length_cons]
    · have := ih (i + 1) fm h
      simp only [List.length_cons]
      omega

theorem gdl_filter_line (r : JsRegex) (p : String) (xs : List String) (k : Nat)
    (i : Nat) (hout : ∀ fm ∈ grepDiskLines r p i xs, fm.line ≠ k) :
    (grepDiskLines r p i xs).filter (fun fm => fm.line == k) = [] := by
  refine List.filter_eq_nil_iff.mpr ?_
  intro fm hfm
  simpa using hout fm hfm

theorem lookup_eq_none_of_keys {V : Type} (m : List (String × V)) (f : String)
    (h : ∀ e ∈ m, e.1 ≠ f) : m.lookup f = none := by
  induction m with
  | nil => rfl
  | cons e rest ih =>
    have : (f == e.1) = false :=
      beq_false_of_ne (fun hf => h e (List.mem_cons_self e rest) hf.symm)
    simp only [List.lookup, this]
    exact ih (fun e' he' => h e' (List.mem_cons_of_mem e he'))

theorem jsMapSet_filter_ne {V : Type} (m : List (String × V)) (g f : String)
    (v : V) (hne : g ≠ f) :
    (jsMapSet m g v).filter (fun e => e.1 == f) =
      m.filter (fun e => e.1 == f) := by
  induction m with
  | nil =>
    simp [jsMapSet, List.filter_cons, beq_false_of_ne hne]
  | cons e rest ih =>
    by_cases he : e.1 == g
    · simp only [jsMapSet, he, if_true]
      have hef : (e.1 == f) = false := by
        refine beq_false_of_ne ?_
        intro h
        exact hne ((eq_of_beq he).symm.trans h)
      simp [List.filter_cons, hef]
    · simp only [jsMapSet, he, Bool.false_eq_true, if_false]
      by_cases hef : e.1 == f
      · simp [List.filter_cons, hef, ih]
      · simp [List.filter_cons, hef, ih]

theorem jsMapSet_lookup_ne {V : Type} (m : List (String × V)) (g f : String)
    (v : V) (hne : g ≠ f) : (jsMapSet m g v).lookup f = m.lookup f := by
  induction m with
  | nil =>
    have : (f == g) = false := beq_false_of_ne (Ne.symm hne)
    simp [jsMapSet, List.lookup, this]
  | cons e rest ih =>
    by_cases he : e.1 == g
    · simp only [jsMapSet, he, if_true]
      by_cases hfe : f == e.1
      · have : e.1 = g := eq_of_beq he
        have : f = e.1 := eq_of_beq hfe
        exact absurd (this.trans (eq_of_beq he)).symm hne
      · have hfe' : (f == e.1) = false := by
          cases h : f == e.1
          · rfl
          · exact absurd h (by simpa using hfe)
        simp [List.lookup, hfe']
    · simp only [jsMapSet, he, Bool.false_eq_true, if_false]
      by_cases hfe : f == e.1
      · simp [List.lookup, hfe]
      · have hfe' : (f == e.1) = false := by
          cases h : f == e.1
          · rfl
          · exact absurd h (by simpa using hfe)
        simp [List.lookup, hfe', ih]

theorem keys_of_lookup_none {V : Type} (m : List (String × V)) (f : String)
    (h : m.lookup f = none) : ∀ e ∈ m, e.1 ≠ f := by
  induction m with
  | nil => intro e he; cases he
  | cons e rest ih =>
    intro e' he'
    cases hbe : f == e.1 with
    | true => simp [List.lookup, hbe] at h
    | false =>
      simp only [List.lookup, hbe] at h
      rcases List.mem_cons.mp he' with h' | h'
      · subst h'
        intro hef
        rw [hef] at hbe
        simp at hbe
      · exact ih h e' h'

theorem grepStep_filter_ne (env : GrepEnv) (r : JsRegex) (root : String)
    (m : List (String × List FileMatch)) (g f : String) (hne : g ≠ f) :
    (grepStep env r root m g).filter (fun e => e.1 == f) =
      m.filter (fun e => e.1 == f) := by
  unfold grepStep
  by_cases h1 : strContains g root = false
  · rw [if_pos h1]
  · rw [if_neg h1]
    by_cases h2 : g ∈ env.docs
    · rw [if_pos h2]
      exact jsMapSet_filter_ne _ _ _ _ hne
    · rw [if_neg h2]
      cases h3 : env.readFile g with
      | error e => rfl
      | ok content =>
        simp only
        cases h4 : m.lookup g with
        | some old => exact jsMapSet_filter_ne _ _ _ _ hne
        | none =>
          by_cases h5 : (grepDiskLines r g 0 (env.strip (splitLines content))).isEmpty
          · rw [if_pos h5]
          · rw [if_neg h5]
            exact jsMapSet_filter_ne _ _ _ _ hne

theorem grepStep_lookup_ne (env : GrepEnv) (r : JsRegex) (root : String)
    (m : List (String × List FileMatch)) (g f : String) (hne : g ≠ f) :
    (grepStep env r root m g).lookup f = m.lookup f := by
  unfold grepStep
  by_cases h1 : strContains g root = false
  · rw [if_pos h1]
  · rw [if_neg h1]
    by_cases h2 : g ∈ env.docs
    · rw [if_pos h2]
      exact jsMapSet_lookup_ne _ _ _ _ hne
    · rw [if_neg h2]
      cases h3 : env.readFile g with
      | error e => rfl
      | ok content =>
        simp only
        cases h4 : m.lookup g with
        | some old => exact jsMapSet_lookup_ne _ _ _ _ hne
        | none =>
          by_cases h5 : (grepDiskLines r g 0 (env.strip (splitLines content))).isEmpty
          · rw [if_pos h5]
          · rw [if_neg h5]
            exact jsMapSet_lookup_ne _ _ _ _ hne

theorem foldl_grepStep_lookup (env : GrepEnv) (r : JsRegex) (root : String)
    (fs : List String) (f : String) (hf : f ∉ fs) :
    ∀ m, (fs.foldl (grepStep env r root) m).lookup f = m.lookup f := by
  induction fs with
  | nil => intro m; rfl
  | cons g rest ih =>
    intro m
    have hgf : g ≠ f := by
      intro h
      exact hf (h ▸ List.mem_cons_self g rest)
    have hfr : f ∉ rest := fun h => hf (List.mem_cons_of_mem g h)
    rw [List.foldl_cons, ih hfr, grepStep_lookup_ne env r root m g f hgf]

theorem foldl_grepStep_filter (env : GrepEnv) (r : JsRegex) (root : String)
    (fs : List String) (f : String) (hf : f ∉ fs) :
    ∀ m, (fs.foldl (grepStep env r root) m).filter (fun e => e.1 == f) =
      m.filter (fun e => e.1 == f) := by
  induction fs with
  | nil => intro m; rfl
  | cons g rest ih =>
    intro m
    have hgf : g ≠ f := by
      intro h
      exact hf (h ▸ List.mem_cons_self g rest)
    have hfr : f ∉ rest := fun h => hf (List.mem_cons_of_mem g h)
    rw [List.foldl_cons, ih hfr, grepStep_filter_ne env r root m g f hgf]

theorem grepStep_disk_fresh (env : GrepEnv) (r : JsRegex) (root : String)
    (m : List (String × List FileMatch)) (f : String) (content : String)
    (hroot : strContains f root = true) (hdoc : f ∉ env.docs)
    (hread : env.readFile f = .ok content)
    (hlook : m.lookup f = none)
    (hne : grepDiskLines r f 0 (env.strip (splitLines content)) ≠ []) :
    grepStep env r root m f =
      jsMapSet m f (grepDiskLines r f 0 (env.strip (splitLines content))) := by
  unfold grepStep
  rw [if_neg (by simp [hroot]), if_neg hdoc, hread]
  simp only [hlook]
  rw [if_neg (by simpa [List.isEmpty_iff] using hne)]

theorem filter_jsMapSet_fresh {V : Type} (m : List (String × V)) (f : String)
    (v : V) (hlook : m.lookup f = none) :
    (jsMapSet m f v).filter (fun e => e.1 == f) = [(f, v)] := by
  have hkeys := keys_of_lookup_none m f hlook
  rw [jsMapSet_notmem m f v hkeys, List.filter_append]
  have h1 : m.filter (fun e => e.1 == f) = [] := by
    refine List.filter_eq_nil_iff.mpr ?_
    intro e he
    simpa using hkeys e he
  rw [h1]
  simp

theorem flatMap_key_filter {β γ : Type} (m : List (String × β)) (f : String)
    (g : String × β → List γ) (hg : ∀ e, (e.1 == f) = false → g e = []) :
    m.flatMap g = (m.filter (fun e => e.1 == f)).flatMap g := by
  induction m with
  | nil => rfl
  | cons e rest ih =>
    cases he : e.1 == f with
    | true => simp [List.filter_cons, he, ih]
    | false => simp [List.filter_cons, he, ih, hg e he]

theorem gdl_filter_at_line (r : JsRegex) (f : String) (lines : List String)
    (k : Nat) (s : String) (hline : lines[k]? = some s)
    (hslen : s.length ≠ 0) :
    (grepDiskLines r f 0 lines).filter (fun fm => fm.line == k) =
      ((scanLineFound r s).reverse).map (mkFileMatch f k s) := by
  obtain ⟨hk, hget⟩ := List.getElem?_eq_some_iff.mp hline
  have hdecomp : lines = lines.take k ++ s :: lines.drop (k + 1) := by
    conv_lhs => rw [← List.take_append_drop k lines]
    rw [List.drop_eq_getElem_cons hk, hget]
  have htk : (lines.take k).length = k := by
    simp [List.length_take]
    omega
  rw [hdecomp, gdl_append, List.filter_append, htk]
  have htake : (grepDiskLines r f 0 (lines.take k)).filter
      (fun fm => fm.line == k) = [] := by
    refine gdl_filter_line r f _ k 0 ?_
    intro fm hfm
    have := gdl_line_eq r f (lines.take k) 0 fm hfm
    rw [htk] at this
    omega
  rw [htake, List.nil_append]
  show (grepDiskLines r f (0 + k) (s :: lines.drop (k + 1))).filter
    (fun fm => fm.line == k) = _
  rw [Nat.zero_add]
  simp only [grepDiskLines, if_neg hslen, List.filter_append]
  have hdrop : (grepDiskLines r f (k + 1) (lines.drop (k + 1))).filter
      (fun fm => fm.line == k) = [] := by
    refine gdl_filter_line r f _ k (k + 1) ?_
    intro fm hfm
    have := gdl_line_eq r f (lines.drop (k + 1)) (k + 1) fm hfm
    omega
  rw [hdrop, List.append_nil]
  refine List.filter_eq_self.mpr ?_
  intro fm hfm
  obtain ⟨mm, hmmm, hmm⟩ := List.mem_map.mp hfm
  subst hmm
  simp [mkFileMatch]

/-- C6 (amended): with a global regex, a disk-backed candidate file whose
comment-stripped line k contains exactly two matches yields, in the grep
result, exactly two distinct raw matches for that line whose column ranges
are non-overlapping and correctly ordered (each start strictly before its
end, the first listed range lying strictly after the second listed range):
the regex restarts at lastIndex 0 on every line, and the per-line matches
are emitted in DESCENDING start-column order because the source builds each
line's match list with unshift (grep.ts line 211). -/
theorem C6_grep_global_two_matches_per_line
    (env : GrepEnv) (r : JsRegex) (root : String)
    (files pre post : List String) (f content : String)
    (k : Nat) (s : String) (m1 m2 : RMatch)
    (hff : env.findFiles = .ok files)
    (hsplit : files = pre ++ f :: post)
    (hok : ∀ g ∈ files, grepStepFails env root g = false)
    (hpre : f ∉ pre) (hpost : f ∉ post)
    (hroot : strContains f root = true)
    (hdoc : f ∉ env.docs)
    (hread : env.readFile f = .ok content)
    (hline : (env.strip (splitLines content))[k]? = some s)
    (hg : r.global = true)
    (h0 : r.find s 0 = some m1)
    (h1 : r.find s (m1.index + m1.len) = some m2)
    (h2 : r.find s (m2.index + m2.len) = none)
    (hl1 : 0 < m1.len) (hl2 : 0 < m2.len)
    (hg1 : m1.groupsLen < m1.len) (hg2 : m2.groupsLen < m2.len)
    (hord : m1.index + m1.len ≤ m2.index)
    (hin : m2.index + m2.len ≤ s.length) :
    (grep env r root).filter (fun l => l.file == f && l.line == k) =
      [mkGrepLoc f (mkFileMatch f k s m2), mkGrepLoc f (mkFileMatch f k s m1)] ∧
    mkFileMatch f k s m1 ≠ mkFileMatch f k s m2 ∧
    (mkFileMatch f k s m1).start < (mkFileMatch f k s m1).endCol ∧
    (mkFileMatch f k s m2).start < (mkFileMatch f k s m2).endCol ∧
    (mkFileMatch f k s m1).endCol ≤ (mkFileMatch f k s m2).start ∧
    (mkFileMatch f k s m2).start > (mkFileMatch f k s m1).start := by
  have hslen : s.length ≠ 0 := by omega
  have hscan : scanLineFound r s = [m1, m2] :=
    scanLineFound_two r s m1 m2 hg h0 h1 h2 hl1 hl2 hord hin
  have hfml : (grepDiskLines r f 0 (env.strip (splitLines content))).filter
      (fun fm => fm.line == k) =
      [mkFileMatch f k s m2, mkFileMatch f k s m1] := by
    rw [gdl_filter_at_line r f _ k s hline hslen, hscan]
    rfl
  have hnewne : grepDiskLines r f 0 (env.strip (splitLines content)) ≠ [] := by
    intro hnil
    rw [hnil] at hfml
    cases hfml
  refine ⟨?_, ?_, ?_, ?_, ?_, ?_⟩
  · unfold grep
    rw [hff]
    show (matchesToLocations
      (grepScanFiles env r root files []).1).filter _ = _
    rw [grepScanFiles_ok env r root files [] hok, hsplit]
    rw [List.foldl_append, List.foldl_cons]
    have hlookpre : (pre.foldl (grepStep env r root) []).lookup f = none :=
      foldl_grepStep_lookup env r root pre f hpre []
    rw [grepStep_disk_fresh env r root _ f content hroot hdoc hread hlookpre
      hnewne]
    have hkeyfilter : ((post.foldl (grepStep env r root)
        (jsMapSet (pre.foldl (grepStep env r root) []) f
          (grepDiskLines r f 0 (env.strip (splitLines content)))))).filter
        (fun e => e.1 == f) =
        [(f, grepDiskLines r f 0 (env.strip (splitLines content)))] := by
      rw [foldl_grepStep_filter env r root post f hpost,
        filter_jsMapSet_fresh _ _ _ hlookpre]
    rw [matchesToLocations, List.filter_flatMap]
    rw [flatMap_key_filter _ f _ ?hg]
    case hg =>
      intro e he
      refine List.filter_eq_nil_iff.mpr ?_
      intro l hl
      obtain ⟨fm, hfm, hfmeq⟩ := List.mem_map.mp hl
      subst hfmeq
      simp [mkGrepLoc, he]
    rw [hkeyfilter]
    simp only [List.flatMap_cons, List.flatMap_nil, List.append_nil]
    rw [List.filter_map]
    have hcomp : ((fun l => l.file == f && l.line == k) ∘ mkGrepLoc f) =
        (fun fm => fm.line == k) := by
      funext fm
      simp [mkGrepLoc]
    rw [hcomp, hfml]
    rfl
  · intro h
    have := congrArg FileMatch.start h
    simp [mkFileMatch] at this
    omega
  · simp [mkFileMatch]; omega
  · simp [mkFileMatch]; omega
  · simp [mkFileMatch]; omega
  · simp [mkFileMatch]; omega

/-- Witness for C6: in the concrete one-file environment, grep with the
global literal regex "ab" on the line "ab ab" returns exactly the two
matches of line 0, listed with start columns 3 then 0. -/
theorem C6_grep_global_two_matches_per_line_witness :
    (grep wEnvGrep (jsRegexLit "ab") "").filter
        (fun l => l.file == "f" && l.line == 0) =
      [mkGrepLoc "f" (mkFileMatch "f" 0 "ab ab" ⟨3, 2, 0⟩),
       mkGrepLoc "f" (mkFileMatch "f" 0 "ab ab" ⟨0, 2, 0⟩)] :=
  (C6_grep_global_two_matches_per_line wEnvGrep (jsRegexLit "ab") ""
    ["f"] [] [] "f" "ab ab" 0 "ab ab" ⟨0, 2, 0⟩ ⟨3, 2, 0⟩
    rfl rfl (by decide) (by decide) (by decide) (by decide) (by decide) rfl
    (by decide) rfl (by decide) (by decide) (by decide) (by decide)
    (by decide) (by decide) (by decide) (by decide) (by decide)).1

/-- Counterexample for C6 as stated: in the same concrete run the two raw
matches of the line are NOT listed in ascending start-column order (their
start columns come out 3 then 0). -/
theorem C6_ascending_order_counterexample :
    ((grep wEnvGrep (jsRegexLit "ab") "").filter
        (fun l => l.file == "f" && l.line == 0)).map (fun l => l.colStart) =
      [3, 0] ∧
    ¬ List.Sorted (· ≤ ·)
      (((grep wEnvGrep (jsRegexLit "ab") "").filter
        (fun l => l.file == "f" && l.line == 0)).map (fun l => l.colStart)) :=
  ⟨by decide, by decide⟩

theorem stackRun_append (es1 es2 : List LineEvent) :
    ∀ s, stackRun s (es1 ++ es2) = stackRun (stackRun s es1) es2 := by
  induction es1 with
  | nil => intro s; rfl
  | cons e rest ih =>
    intro s
    cases e with
    | openScope n =>
      simp only [List.cons_append, stackRun]
      exact ih _
    | closeScope =>
      simp only [List.cons_append, stackRun]
      exact ih _
    | other =>
      simp only [List.cons_append, stackRun]
      exact ih _

theorem stackRun_length (es : List LineEvent) :
    ∀ s : List String, prefixOkB s.length es = true →
      (stackRun s es).length + closesCount es = s.length + opensCount es := by
  induction es with
  | nil => intro s h; simp [stackRun, opensCount, closesCount]
  | cons e rest ih =>
    intro s h
    cases e with
    | openScope n =>
      simp only [prefixOkB] at h
      have h' : prefixOkB (s ++ [n]).length rest = true := by
        simpa [List.length_append] using h
      have hih := ih (s ++ [n]) h'
      simp only [List.length_append, List.length_singleton] at hih
      simp only [stackRun, opensCount, closesCount]
      omega
    | closeScope =>
      simp only [prefixOkB, Bool.and_eq_true, decide_eq_true_eq] at h
      obtain ⟨hpos, h'⟩ := h
      have hlen : s.dropLast.length = s.length - 1 := List.length_dropLast s
      have h'' : prefixOkB s.dropLast.length rest = true := by
        rw [hlen]; exact h'
      have hih := ih s.dropLast h''
      rw [hlen] at hih
      simp only [stackRun, opensCount, closesCount]
      omega
    | other =>
      simp only [prefixOkB] at h
      have hih := ih s h
      simp only [stackRun, opensCount, closesCount]
      omega

theorem stackRun_balanced_nil (es : List LineEvent)
    (hb : balancedB es = true) : stackRun [] es = [] := by
  unfold balancedB at hb
  simp only [Bool.and_eq_true, beq_iff_eq] at hb
  obtain ⟨hok, hcnt⟩ := hb
  have hlen := stackRun_length es [] (by simpa using hok)
  refine List.length_eq_zero.mp ?_
  simp only [List.length_nil] at hlen
  omega

/-- C2: getModule ignores balanced sibling blocks that were opened and
closed before the queried line: prepending any balanced line block shifts
the query without changing the result, so the returned dot-joined name is
exactly that of the modules still open at the queried line; and on the
example file the open modules at line index 2 (exclusive bound 3) are
"audio.samples". -/
theorem C2_getModule_balanced_sibling_independence :
    (∀ (pre rest : List String) (n : Nat),
      balancedB (pre.map lineEvent) = true →
      getModule (pre ++ rest) (pre.length + n) = getModule rest n) ∧
    getModule ["MODULE audio", "MODULE samples", "init:", "ENDMODULE",
      "ENDMODULE"] 3 = "audio.samples" := by
  constructor
  · intro pre rest n hb
    unfold getModule
    rw [List.take_append, List.map_append, stackRun_append,
      stackRun_balanced_nil _ hb]
  · decide

/-- Witness for C2: prepending the balanced block
MODULE a / ENDMODULE and shifting the bound by its length leaves the
example's module label unchanged. -/
theorem C2_getModule_balanced_sibling_independence_witness :
    getModule (["MODULE a", "ENDMODULE"] ++
      ["MODULE audio", "MODULE samples", "init:", "ENDMODULE", "ENDMODULE"])
      (2 + 3) =
    getModule ["MODULE audio", "MODULE samples", "init:", "ENDMODULE",
      "ENDMODULE"] 3 :=
  C2_getModule_balanced_sibling_independence.1
    ["MODULE a", "ENDMODULE"] _ 3 (by decide)

theorem idxOfDot_none_char (l : List Char) (h : idxOfDot l = none) :
    l.takeWhile notDot = l ∧
    l.dropWhile notDot = [] := by
  induction l with
  | nil => exact ⟨rfl, rfl⟩
  | cons c cs ih =>
    simp only [idxOfDot] at h
    by_cases hc : c == '.'
    · rw [if_pos hc] at h
      cases h
    · rw [if_neg hc] at h
      have hcs := ih (by
        cases hcs : idxOfDot cs
        · rfl
        · rw [hcs] at h; cases h)
      have hp : notDot c = true := by
        simpa [notDot] using hc
      constructor
      · rw [List.takeWhile_cons_of_pos hp, hcs.1]
      · rw [List.dropWhile_cons_of_pos hp, hcs.2]

theorem idxOfDot_some_char (l : List Char) (k : Nat) (h : idxOfDot l = some k) :
    l.takeWhile notDot = l.take k ∧
    l.dropWhile notDot = '.' :: l.drop (k + 1) ∧
    l.take (k + 1) = l.take k ++ ['.'] := by
  induction l generalizing k with
  | nil => cases h
  | cons c cs ih =>
    simp only [idxOfDot] at h
    by_cases hc : c == '.'
    · rw [if_pos hc] at h
      have hk : k = 0 := by
        cases h
        rfl
      subst hk
      have hcdot : c = '.' := eq_of_beq hc
      subst hcdot
      have hp : ¬ notDot '.' = true := by simp [notDot]
      refine ⟨?_, ?_, ?_⟩
      · rw [List.takeWhile_cons_of_neg hp]
        rfl
      · rw [List.dropWhile_cons_of_neg hp]
        rfl
      · rfl
    · rw [if_neg hc] at h
      obtain ⟨k', hk', hkk⟩ := Option.map_eq_some'.mp h
      obtain ⟨h1, h2, h3⟩ := ih k' hk'
      subst hkk
      have hp : notDot c = true := by simpa [notDot] using hc
      refine ⟨?_, ?_, ?_⟩
      · rw [List.takeWhile_cons_of_pos hp, h1]
        rfl
      · rw [List.dropWhile_cons_of_pos hp, h2]
        rfl
      · rw [List.take_succ_cons, List.take_succ_cons, h3]
        rfl

/-- C3 (amended): getRegExFromLabel splits the label at its FIRST dot
(label.indexOf): the dot-free prefix plus that first dot is matched
literally (the dot escaped), everything after the first dot is fuzzied with
word-character wildcards plus a trailing wildcard, and the regex carries the
case-insensitive flag. -/
theorem C3_getRegExFromLabel_splits_at_first_dot (label : String) :
    getRegExFromLabel label = specRegExFromLabelFirstDot label := by
  unfold getRegExFromLabel specRegExFromLabelFirstDot
  cases hidx : idxOfDot label.toList with
  | none =>
    obtain ⟨ht, hd⟩ := idxOfDot_none_char _ hidx
    rw [hd]
    simp only [hidx]
    rfl
  | some k =>
    obtain ⟨ht, hd, htk⟩ := idxOfDot_some_char _ k hidx
    rw [hd, ht]
    simp only [hidx, htk]

/-- Counterexample for C3 as stated: for the two-dot label "a.b.c" the
built pattern keeps only "a." literal and fuzzies "b.c" (first-dot split),
which differs from the last-dot split the claim describes ("a.b." literal,
only "c" fuzzied). -/
theorem C3_last_dot_counterexample :
    getRegExFromLabel "a.b.c" ≠ specRegExFromLabelLastDot "a.b.c" ∧
    getRegExFromLabel "a.b.c" = ("a\\.\\w*b\\w*.\\w*c\\w*", true) ∧
    specRegExFromLabelLastDot "a.b.c" = ("a\\.b\\.\\w*c\\w*", true) :=
  ⟨by decide, by decide, by decide⟩

/-- C9: in renameInFile, a line that matches the include-directive pattern
keeps its exact text, no matter how many replacement ranges target it; a
line targeted by no range is also unchanged; and the written file is the
newline-join of the resulting lines. -/
theorem C9_renameInFile_include_lines_untouched :
    (∀ (inc : String → Bool) (newName : String) (lines : List String)
      (changes : List VsRange) (out : List String) (row : Nat) (l : String),
      renameLines inc newName lines changes = some out →
      lines[row]? = some l → inc l = true → out[row]? = some l) ∧
    (∀ (inc : String → Bool) (newName : String) (lines : List String)
      (changes : List VsRange) (out : List String) (row : Nat),
      renameLines inc newName lines changes = some out →
      (∀ r ∈ changes, r.startPos.line ≠ row) → out[row]? = lines[row]?) ∧
    (∀ (inc : String → Bool) (newName : String) (lines : List String)
      (changes : List VsRange) (out : List String),
      renameLines inc newName lines changes = some out →
      renameInFile inc lines changes newName =
        some (String.intercalate "\n" out)) := by
  refine ⟨?_, ?_, ?_⟩
  · intro inc newName lines changes
    induction changes generalizing lines with
    | nil =>
      intro out row l hrun hget hinc
      cases hrun
      exact hget
    | cons range rest ih =>
      intro out row l hrun hget hinc
      simp only [renameLines] at hrun
      cases hrow : lines[range.startPos.line]? with
      | none => rw [hrow] at hrun; cases hrun
      | some line =>
        rw [hrow] at hrun
        dsimp only at hrun
        by_cases hinc' : inc line
        · rw [if_pos hinc'] at hrun
          exact ih lines out row l hrun hget hinc
        · rw [if_neg hinc'] at hrun
          by_cases heq : range.startPos.line = row
          · subst heq
            rw [hget] at hrow
            cases hrow
            exact absurd hinc hinc'
          · refine ih _ out row l hrun ?_ hinc
            rw [List.getElem?_set_ne heq]
            exact hget
  · intro inc newName lines changes
    induction changes generalizing lines with
    | nil =>
      intro out row hrun hnr
      cases hrun
      rfl
    | cons range rest ih =>
      intro out row hrun hnr
      simp only [renameLines] at hrun
      cases hrow : lines[range.startPos.line]? with
      | none => rw [hrow] at hrun; cases hrun
      | some line =>
        rw [hrow] at hrun
        dsimp only at hrun
        have hne : range.startPos.line ≠ row :=
          hnr range (List.mem_cons_self range rest)
        by_cases hinc' : inc line
        · rw [if_pos hinc'] at hrun
          exact ih lines out row hrun
            (fun r hr => hnr r (List.mem_cons_of_mem range hr))
        · rw [if_neg hinc'] at hrun
          have := ih _ out row hrun
            (fun r hr => hnr r (List.mem_cons_of_mem range hr))
          rw [this, List.getElem?_set_ne hne]
  · intro inc newName lines changes out hrun
    rw [renameInFile, hrun]
    rfl

/-- Witness for C9: the include line of a concrete file is untouched even
though a range targets it, while the non-include line is spliced. -/
theorem C9_renameInFile_include_lines_untouched_witness :
    (["  include \x22init.asm\x22", "  call start"] : List String)[0]? =
      some "  include \x22init.asm\x22" :=
  C9_renameInFile_include_lines_untouched.1 modelIncludeLine "start"
    ["  include \x22init.asm\x22", "  call init"]
    [⟨⟨0, 11⟩, ⟨0, 15⟩⟩, ⟨⟨1, 7⟩, ⟨1, 11⟩⟩]
    ["  include \x22init.asm\x22", "  call start"] 0 "  include \x22init.asm\x22"
    (by decide) (by decide) (by decide)

theorem lookup_mem {V : Type} (c : List (String × V)) (k : String) (v : V)
    (h : c.lookup k = some v) : (k, v) ∈ c := by
  induction c with
  | nil => cases h
  | cons e rest ih =>
    cases hke : k == e.1 with
    | true =>
      simp only [List.lookup, hke] at h
      cases h
      have : k = e.1 := eq_of_beq hke
      subst this
      exact List.mem_cons_self _ _
    | false =>
      simp only [List.lookup, hke] at h
      exact List.mem_cons_of_mem e (ih h)

theorem lookup_append_str {V : Type} (c1 c2 : List (String × V)) (k : String) :
    (c1 ++ c2).lookup k =
      match c1.lookup k with
      | some v => some v
      | none => c2.lookup k := by
  induction c1 with
  | nil => rfl
  | cons e rest ih =>
    cases hke : k == e.1 with
    | true => simp [List.lookup, hke]
    | false => simp [List.lookup, hke, ih]

theorem cacheLookup_none_elim {M : Type}
    (c : List (String × List String × M)) (k : String)
    (h : cacheLookup c k = none) :
    c.lookup k = none ∧ k ∉ mapProtoNames := by
  unfold cacheLookup at h
  cases hl : c.lookup k with
  | some v =>
    rw [hl] at h
    cases h
  | none =>
    rw [hl] at h
    by_cases hp : k ∈ mapProtoNames
    · rw [if_pos hp] at h
      cases h
    · exact ⟨rfl, hp⟩

theorem cacheLookup_builtin_elim {M : Type}
    (c : List (String × List String × M)) (k : String)
    (h : cacheLookup c k = some CacheVal.builtin) : c.lookup k = none := by
  unfold cacheLookup at h
  cases hl : c.lookup k with
  | some v =>
    rw [hl] at h
    cases h
  | none => rfl

theorem cacheFetch_spec {M : Type} (env : ReduceEnv M) (st : RState M)
    (f : String) (hinv : rstateInv env st) :
    rstateInv env (cacheFetch env st f).1 ∧
    (cacheFetch env st f).1.used =
      st.used ++ [(f, (cacheFetch env st f).2)] ∧
    (f ∉ mapProtoNames →
      (cacheFetch env st f).2 =
        CacheVal.info (env.fs f) (env.analyze (env.fs f))) ∧
    (∀ lines mi, (cacheFetch env st f).2 = CacheVal.info lines mi →
      lines = env.fs f ∧ mi = env.analyze (env.fs f)) := by
  obtain ⟨hcc, hnd, hrd⟩ := hinv
  unfold cacheFetch
  cases hcl : cacheLookup st.cache f with
  | some v =>
    cases v with
    | info lines mi =>
      have hlk : st.cache.lookup f = some (lines, mi) := by
        unfold cacheLookup at hcl
        cases hl : st.cache.lookup f with
        | some lv =>
          rw [hl] at hcl
          cases hcl
          rfl
        | none =>
          rw [hl] at hcl
          by_cases hp : f ∈ mapProtoNames
          · rw [if_pos hp] at hcl; cases hcl
          · rw [if_neg hp] at hcl; cases hcl
      have hcons := hcc _ (lookup_mem _ _ _ hlk)
      have hlines : lines = env.fs f := hcons.1
      have hmi : mi = env.analyze (env.fs f) := by
        have h2 := hcons.2
        rw [hlines] at h2
        exact h2
      refine ⟨⟨hcc, hnd, hrd⟩, rfl, ?_, ?_⟩
      · intro _
        rw [hlines, hmi]
      · intro lines' mi' h
        cases h
        exact ⟨hlines, hmi⟩
    | builtin =>
      have hproto : f ∈ mapProtoNames := by
        unfold cacheLookup at hcl
        cases hl : st.cache.lookup f with
        | some lv => rw [hl] at hcl; cases hcl
        | none =>
          rw [hl] at hcl
          by_cases hp : f ∈ mapProtoNames
          · exact hp
          · rw [if_neg hp] at hcl; cases hcl
      refine ⟨⟨hcc, hnd, hrd⟩, rfl, ?_, ?_⟩
      · intro hnp
        exact absurd hproto hnp
      · intro lines' mi' h
        cases h
  | none =>
    obtain ⟨hlnone, hnp⟩ := cacheLookup_none_elim _ _ hcl
    have hfresh : f ∉ st.reads := by
      intro hmem
      have := hrd _ hmem
      rw [hlnone] at this
      cases this
    refine ⟨⟨?_, ?_, ?_⟩, rfl, ?_, ?_⟩
    · intro e he
      rcases List.mem_append.mp he with h | h
      · exact hcc e h
      · rcases List.mem_singleton.mp h with h'
        subst h'
        exact ⟨rfl, rfl⟩
    · simp only [List.nodup_append, List.nodup_singleton, List.Disjoint]
      refine ⟨hnd, trivial, ?_⟩
      intro a ha hax
      rcases List.mem_singleton.mp hax with h'
      subst h'
      exact hfresh ha
    · intro g hg
      rw [lookup_append_str]
      rcases List.mem_append.mp hg with h | h
      · have hsome := hrd g h
        cases hl : st.cache.lookup g with
        | some v => simp
        | none => rw [hl] at hsome; cases hsome
      · rcases List.mem_singleton.mp h with h'
        subst h'
        rw [hlnone]
        simp [List.lookup]
    · intro _; rfl
    · intro lines' mi' h
      cases h
      exact ⟨rfl, rfl⟩

theorem visitLoc_master {M : Type} (env : ReduceEnv M) (origin : MLabel)
    (originLine : Nat) (ro cf : Bool) (rl rml : String) (st : RState M)
    (loc : GrepLocation) (hinv : rstateInv env st) :
    rstateInv env (visitLoc env origin originLine ro cf rl rml st loc).1 ∧
    (∃ v, (visitLoc env origin originLine ro cf rl rml st loc).1.used =
      st.used ++ [(loc.file, v)] ∧
      (loc.file ∉ mapProtoNames →
        v = CacheVal.info (env.fs loc.file) (env.analyze (env.fs loc.file)))) ∧
    (∀ res, (visitLoc env origin originLine ro cf rl rml st loc).2 = .ok res →
      res = reduceDecide env origin originLine ro cf rl rml loc) ∧
    (loc.file ∉ mapProtoNames →
      (visitLoc env origin originLine ro cf rl rml st loc).2 =
        .ok (reduceDecide env origin originLine ro cf rl rml loc)) := by
  obtain ⟨hinv', hused, hval, hvalinfo⟩ := cacheFetch_spec env st loc.file hinv
  unfold visitLoc
  rcases hstep : cacheFetch env st loc.file with ⟨st1, v⟩
  rw [hstep] at hinv' hused hval hvalinfo
  simp only at hinv' hused hval hvalinfo ⊢
  by_cases hdrop : (ro && (loc.line == originLine)) = true
  · rw [if_pos hdrop]
    refine ⟨hinv', ⟨v, hused, hval⟩, ?_, ?_⟩
    · intro res hres
      cases hres
      unfold reduceDecide
      rw [if_pos hdrop]
    · intro _
      unfold reduceDecide
      rw [if_pos hdrop]
  · rw [if_neg hdrop]
    cases v with
    | info lines mi =>
      obtain ⟨hl1, hl2⟩ := hvalinfo lines mi rfl
      subst hl1
      subst hl2
      refine ⟨hinv', ⟨_, hused, fun _ => rfl⟩, ?_, ?_⟩
      · intro res hres
        simp only at hres
        cases hres
        unfold reduceDecide
        rw [if_neg hdrop]
        rfl
      · intro _
        unfold reduceDecide
        rw [if_neg hdrop]
        rfl
    | builtin =>
      refine ⟨hinv', ⟨CacheVal.builtin, hused, ?_⟩, ?_, ?_⟩
      · intro hnp
        have := hval hnp
        cases this
      · intro res hres
        simp only at hres
        cases hres
      · intro hnp
        have := hval hnp
        cases this

theorem reduceLoop_master {M : Type} (env : ReduceEnv M) (origin : MLabel)
    (originLine : Nat) (ro cf : Bool) (rl rml : String)
    (locs : List GrepLocation) :
    ∀ st : RState M, rstateInv env st →
    rstateInv env (reduceLoop env origin originLine ro cf rl rml locs st).1 ∧
    (∀ out,
      (reduceLoop env origin originLine ro cf rl rml locs st).2 = .ok out →
      out = locs.filterMap (reduceDecide env origin originLine ro cf rl rml)) ∧
    ((∀ l ∈ locs, l.file ∉ mapProtoNames) →
      (∃ out, (reduceLoop env origin originLine ro cf rl rml locs st).2 =
        .ok out) ∧
      (∀ p ∈ (reduceLoop env origin originLine ro cf rl rml locs st).1.used,
        p ∈ st.used ∨
          p.2 = CacheVal.info (env.fs p.1) (env.analyze (env.fs p.1)))) := by
  induction locs with
  | nil =>
    intro st hinv
    refine ⟨hinv, ?_, ?_⟩
    · intro out h
      cases h
      rfl
    · intro _
      exact ⟨⟨[], rfl⟩, fun p hp => Or.inl hp⟩
  | cons loc rest ih =>
    intro st hinv
    have ihspec := ih st hinv
    unfold reduceLoop
    rcases hrec : reduceLoop env origin originLine ro cf rl rml rest st
      with ⟨st1, r1⟩
    rw [hrec] at ihspec
    obtain ⟨ih1, ih2, ih3⟩ := ihspec
    cases r1 with
    | error e =>
      refine ⟨ih1, ?_, ?_⟩
      · intro out h
        simp at h
      · intro hnp
        obtain ⟨out, hout⟩ :=
          (ih3 (fun l hl => hnp l (List.mem_cons_of_mem loc hl))).1
        simp at hout
    | ok kept =>
      obtain ⟨v1, v2, v3, v4⟩ :=
        visitLoc_master env origin originLine ro cf rl rml st1 loc ih1
      dsimp only
      rcases hv : visitLoc env origin originLine ro cf rl rml st1 loc
        with ⟨st2, rv⟩
      rw [hv] at v1 v2 v3 v4
      simp only at v1 v2 v3 v4
      cases rv with
      | error e =>
        refine ⟨v1, ?_, ?_⟩
        · intro out h
          simp at h
        · intro hnp
          have h4 := v4 (hnp loc (List.mem_cons_self loc rest))
          simp at h4
      | ok res =>
        have hres : res = reduceDecide env origin originLine ro cf rl rml loc :=
          v3 res rfl
        have hkept : kept =
            rest.filterMap (reduceDecide env origin originLine ro cf rl rml) :=
          ih2 kept rfl
        cases res with
        | none =>
          refine ⟨v1, ?_, ?_⟩
          · intro out h
            cases h
            rw [hkept, List.filterMap_cons_none hres.symm]
          · intro hnp
            refine ⟨⟨kept, rfl⟩, ?_⟩
            intro p hp
            obtain ⟨vv, hvv1, hvv2⟩ := v2
            rw [hvv1] at hp
            rcases List.mem_append.mp hp with h | h
            · rcases (ih3 (fun l hl => hnp l (List.mem_cons_of_mem loc hl))).2
                p h with h' | h'
              · exact Or.inl h'
              · exact Or.inr h'
            · rcases List.mem_singleton.mp h with h'
              subst h'
              refine Or.inr ?_
              exact hvv2 (hnp loc (List.mem_cons_self loc rest))
        | some loc' =>
          refine ⟨v1, ?_, ?_⟩
          · intro out h
            cases h
            rw [hkept, List.filterMap_cons_some hres.symm]
          · intro hnp
            refine ⟨⟨loc' :: kept, rfl⟩, ?_⟩
            intro p hp
            obtain ⟨vv, hvv1, hvv2⟩ := v2
            rw [hvv1] at hp
            rcases List.mem_append.mp hp with h | h
            · rcases (ih3 (fun l hl => hnp l (List.mem_cons_of_mem loc hl))).2
                p h with h' | h'
              · exact Or.inl h'
              · exact Or.inr h'
            · rcases List.mem_singleton.mp h with h'
              subst h'
              refine Or.inr ?_
              exact hvv2 (hnp loc (List.mem_cons_self loc rest))

theorem reduceLocations_eq {M : Type} (env : ReduceEnv M)
    (locs : List GrepLocation) (docFileName : String) (position : Pos)
    (ro cf : Bool) :
    reduceLocations env locs docFileName position ro cf =
      reduceLoop env (originLabel env docFileName position) position.line
        ro cf
        (getRegExFromLabel (originLabel env docFileName position).label).1
        (getRegExFromLabel
          (originLabel env docFileName position).moduleLabel).1
        locs ⟨[], [], []⟩ := rfl

theorem rstateInv_empty {M : Type} (env : ReduceEnv M) :
    rstateInv env (⟨[], [], []⟩ : RState M) := by
  refine ⟨?_, List.nodup_nil, ?_⟩
  · intro e he
    cases he
  · intro f hf
    cases hf

/-- C1: in an exact-mode (checkFullName = true) reduceLocations call that
completes, a raw location that survives the own-location removal is kept in
the returned set iff at least one of the four cross equalities between its
resolved (label, moduleLabel) and the origin's holds; a location satisfying
none of the four is dropped. -/
theorem C1_reduceLocations_exact_four_way_match {M : Type}
    (env : ReduceEnv M) (locs : List GrepLocation) (docFileName : String)
    (position : Pos) (removeOwn : Bool) (st : RState M)
    (out : List GrepLocation)
    (hrun : reduceLocations env locs docFileName position removeOwn true =
      (st, .ok out))
    (loc : GrepLocation) (hmem : loc ∈ locs)
    (hsurv : (removeOwn && (loc.line == position.line)) = false) :
    resolveLoc env loc ∈ out ↔
      keepExact (resolveML env loc.file loc.line loc.colStart)
        (originLabel env docFileName position) = true := by
  rw [reduceLocations_eq] at hrun
  have hm := reduceLoop_master env (originLabel env docFileName position)
    position.line removeOwn true
    (getRegExFromLabel (originLabel env docFileName position).label).1
    (getRegExFromLabel (originLabel env docFileName position).moduleLabel).1
    locs ⟨[], [], []⟩ (rstateInv_empty env)
  rw [hrun] at hm
  have hout := hm.2.1 out rfl
  subst hout
  constructor
  · intro h
    obtain ⟨a, ha, hda⟩ := List.mem_filterMap.mp h
    unfold reduceDecide at hda
    by_cases hdrop : (removeOwn && (a.line == position.line)) = true
    · rw [if_pos hdrop] at hda
      cases hda
    · rw [if_neg (by simpa using hdrop)] at hda
      simp only [if_true] at hda
      by_cases hkeep : keepExact
          (resolveML env a.file a.line a.colStart)
          (originLabel env docFileName position) = true
      · rw [if_pos hkeep] at hda
        have heq : resolveLoc env a = resolveLoc env loc :=
          Option.some.inj hda
        have hfile : a.file = loc.file := by
          have h' := congrArg GrepLocation.file heq
          simpa [resolveLoc] using h'
        have hline : a.line = loc.line := by
          have h' := congrArg GrepLocation.line heq
          simpa [resolveLoc] using h'
        have hcol : a.colStart = loc.colStart := by
          have h' := congrArg GrepLocation.colStart heq
          simpa [resolveLoc] using h'
        rw [hfile, hline, hcol] at hkeep
        exact hkeep
      · rw [if_neg hkeep] at hda
        cases hda
  · intro hkeep
    refine List.mem_filterMap.mpr ⟨loc, hmem, ?_⟩
    unfold reduceDecide
    rw [if_neg (by simpa using hsurv)]
    simp only [if_true]
    rw [if_pos hkeep]

/-- Witness for C1: in the concrete environment the candidate in b.asm
resolves to (init, sound.init), the origin to (init, audio.init); the
label-label equality holds, so the location is kept. -/
theorem C1_reduceLocations_exact_four_way_match_witness :
    resolveLoc wEnvReduce wLocB ∈ [resolveLoc wEnvReduce wLocB] ↔
      keepExact (resolveML wEnvReduce "b.asm" 2 4)
        (originLabel wEnvReduce "a.asm" ⟨1, 0⟩) = true :=
  C1_reduceLocations_exact_four_way_match wEnvReduce [wLocB] "a.asm"
    ⟨1, 0⟩ true
    (reduceLocations wEnvReduce [wLocB] "a.asm" ⟨1, 0⟩ true true).1
    [resolveLoc wEnvReduce wLocB] (by decide) wLocB (by decide) (by decide)

/-- C4 (amended): in a reduceLocations call all of whose candidate file
paths avoid the property names inherited from Map.prototype (true of every
real file system path), the call completes, no candidate file is read more
than once, and every visited location operates on the cached
(lines, module/struct events) pair computed from its file. -/
theorem C4_fileinfo_cache_reads_each_file_once {M : Type}
    (env : ReduceEnv M) (locs : List GrepLocation) (docFileName : String)
    (position : Pos) (ro cf : Bool)
    (hsafe : ∀ l ∈ locs, l.file ∉ mapProtoNames) :
    (∃ out, (reduceLocations env locs docFileName position ro cf).2 =
      .ok out) ∧
    (reduceLocations env locs docFileName position ro cf).1.reads.Nodup ∧
    (∀ f, ((reduceLocations env locs docFileName position ro cf).1.reads.count
      f) ≤ 1) ∧
    (∀ p ∈ (reduceLocations env locs docFileName position ro cf).1.used,
      p.2 = CacheVal.info (env.fs p.1) (env.analyze (env.fs p.1))) := by
  rw [reduceLocations_eq]
  have hm := reduceLoop_master env (originLabel env docFileName position)
    position.line ro cf
    (getRegExFromLabel (originLabel env docFileName position).label).1
    (getRegExFromLabel (originLabel env docFileName position).moduleLabel).1
    locs ⟨[], [], []⟩ (rstateInv_empty env)
  obtain ⟨hA, hB, hC⟩ := hm
  obtain ⟨hex, hused⟩ := hC hsafe
  refine ⟨hex, hA.2.1, ?_, ?_⟩
  · intro f
    exact List.nodup_iff_count_le_one.mp hA.2.1 f
  · intro p hp
    rcases hused p hp with h | h
    · cases h
    · exact h

/-- Witness for C4: the concrete two-location call in b.asm completes, the
file is read at most once and both visits used the computed pair. -/
theorem C4_fileinfo_cache_reads_each_file_once_witness :
    (reduceLocations wEnvReduce [wLocB, wLocB0] "a.asm" ⟨1, 0⟩ false
      true).1.reads.count "b.asm" ≤ 1 :=
  (C4_fileinfo_cache_reads_each_file_once wEnvReduce [wLocB, wLocB0]
    "a.asm" ⟨1, 0⟩ false true (by decide)).2.2.1 "b.asm"

/-- Counterexample for C4 as stated: with a candidate file literally named
"get", the bracket read filesInfo["get"] yields the inherited truthy
Map.prototype.get, so the file is never read, no (lines, events) pair is
ever cached or reused (the visit trace records the builtin), and the call
aborts instead of completing. -/
theorem C4_map_prototype_collision_counterexample :
    ¬ (∀ p ∈ (reduceLocations wEnvReduce [wLocGet 0, wLocGet 1] "d.asm"
        ⟨5, 0⟩ false true).1.used,
        p.2 = CacheVal.info (wEnvReduce.fs p.1)
          (wEnvReduce.analyze (wEnvReduce.fs p.1))) ∧
    (reduceLocations wEnvReduce [wLocGet 0, wLocGet 1] "d.asm" ⟨5, 0⟩ false
      true).1.reads = [] ∧
    (reduceLocations wEnvReduce [wLocGet 0, wLocGet 1] "d.asm" ⟨5, 0⟩ false
      true).2 = Except.error () :=
  ⟨by decide, by decide, by decide⟩

/-- C5: evaluation at the failing input.  The origin is at line 0 of
a.asm; the candidate is at line 0 of the DIFFERENT file b.asm and its
resolved labels pass the four-way test, yet reduceLocations with
removeOwnLocation drops it: the source's own-location guard compares
fileName with itself (grep.ts line 480), so only the line numbers are
compared. -/
theorem C5_same_line_other_file_dropped :
    (reduceLocations wEnvReduce [wLocB0] "a.asm" ⟨0, 0⟩ true true).2 =
      .ok [] ∧
    keepExact (resolveML wEnvReduce "b.asm" 0 4)
      (originLabel wEnvReduce "a.asm" ⟨0, 0⟩) = true ∧
    "b.asm" ≠ "a.asm" :=
  ⟨by decide, by decide, by decide⟩
